import Mathlib

/-
  Verification development for the LetterGrader C program.

  The record pipeline of the program is shallowly embedded:
  the singly linked list of `struct node` records (types.h) becomes a
  `List Record`; `strtok`-based tokenization (helper.c) becomes pure
  functions on `List Char`; C `double` arithmetic on integer scores and
  the fixed weight table becomes exact `Rat` arithmetic; fallible
  operations return `Except`-style results mirroring `ReturnStatus`.
  Out-of-bounds reads and null dereferences that the C code can perform
  are modelled by explicit marker values so that theorems can state when
  they are (or are not) reached.
-/

set_option maxHeartbeats 1000000

namespace LetterGrader

/-- Return status codes of the C program (types.h): SUCCESS = 0, FAILURE = -1. -/
inductive ReturnStatus where
  | SUCCESS : ReturnStatus
  | FAILURE : ReturnStatus
deriving DecidableEq, Repr

/-- Student record (types.h `struct node`) without the intrusive `next`
pointer: the linked list rooted at `head` is modelled as a `List Record`. -/
structure Record where
  name : List Char
  scores : List Int
  numberOfScores : Nat
  grade : Char
deriving DecidableEq, Repr

/-- One call of C `strtok(_, ",")` on the saved suffix `s` (helper.c uses
`strtok` for all tokenization): skip leading separators; if nothing is left
return NULL (`none`), otherwise return the maximal separator-free token and
save the remainder for the next call. -/
def strtok_step (s : List Char) : Option (List Char) × List Char :=
  match s.dropWhile (fun c => c = ',') with
  | [] => (none, [])
  | c :: cs => (some (c :: cs.takeWhile (fun d => d ≠ ',')), cs.dropWhile (fun d => d ≠ ','))

/-- The full token sequence produced by iterating `strtok` over a string
(helper.c `get_token_count` / `get_next_token`): maximal nonempty runs
between commas.  Written with an accumulator for the token being scanned so
that the recursion is structural and computes by `rfl`; the lemmas
`strtok_toks_comma`, `strtok_toks_tok` and `strtok_toks_step` below recover
the per-call `strtok` view. -/
def strtok_toks_aux : List Char → List Char → List (List Char)
  | [], acc => if acc = [] then [] else [acc.reverse]
  | c :: cs, acc =>
    if c = ',' then
      if acc = [] then strtok_toks_aux cs [] else acc.reverse :: strtok_toks_aux cs []
    else strtok_toks_aux cs (c :: acc)

/-- Token sequence of a raw line under repeated `strtok` calls. -/
def strtok_toks (s : List Char) : List (List Char) := strtok_toks_aux s []

/-- Successive results of `get_next_token` (helper.c): the static pointer
`temp` is modelled by threading the saved suffix through `strtok_step`.
The fuel argument only bounds the number of calls; `s.length + 1` calls
always suffice (`token_run_eq_strtok_toks`). -/
def token_run : Nat → List Char → List (List Char)
  | 0, _ => []
  | fuel + 1, s =>
    match strtok_step s with
    | (none, _) => []
    | (some t, rest) => t :: token_run fuel rest

/-- The counting loop of `get_token_count` (helper.c, lines 207-215):
`while (token != NULL) (*ntokens)++;` over successive `strtok` results. -/
def count_tokens_loop : Nat → List Char → Nat
  | 0, _ => 0
  | fuel + 1, s =>
    match strtok_step s with
    | (none, _) => 0
    | (some _, rest) => 1 + count_tokens_loop fuel rest

/-- helper.c `get_token_count`: copies the string, counts `strtok` tokens,
and always returns SUCCESS (allocation is modelled as succeeding). -/
def get_token_count (s : List Char) : ReturnStatus × Nat :=
  (ReturnStatus.SUCCESS, count_tokens_loop (s.length + 1) s)

/-- Modelled from the spec (section 4.1): the ordered sequence of substrings
between comma separators, with empty fields allowed.  This is the spec's
description of the tokenizer contract, stated here only to be compared with
the `strtok` behaviour of the code. -/
def fields_per_spec : List Char → List (List Char)
  | [] => [[]]
  | c :: cs =>
    if c = ',' then [] :: fields_per_spec cs
    else
      match fields_per_spec cs with
      | [] => [[c]]
      | t :: ts => (c :: t) :: ts

/-- C `isspace` in the default locale. -/
def c_isspace (c : Char) : Bool :=
  c == ' ' || c == '\t' || c == '\n' || c.toNat == 11 || c.toNat == 12 || c == '\r'

/-- Digit-consuming loop of C `atoi`: accumulate decimal digits, stop at the
first non-digit. -/
def atoi_digits : List Char → Int → Int
  | [], acc => acc
  | c :: cs, acc =>
    if c.isDigit then atoi_digits cs (acc * 10 + ((c.toNat : Int) - ('0'.toNat : Int)))
    else acc

/-- C `atoi` (used by student.c `set_scores`): skip whitespace, optional
sign, then decimal digits; a string with no leading digits yields 0.
Overflow is not modelled (all inputs of interest are far below INT_MAX). -/
def atoi (s : List Char) : Int :=
  match s.dropWhile c_isspace with
  | '-' :: rest => - atoi_digits rest 0
  | '+' :: rest => atoi_digits rest 0
  | other => atoi_digits other 0

/-- Failure modes of record creation (student.c `create_student` and its
helpers).  `nullDerefUB` marks the undefined behaviour the C code commits
when `strtok` has returned NULL and the result is fed to `strlen`/`atoi`. -/
inductive CreateErr where
  | nullDerefUB : CreateErr
  | invalidScore : Int → Int → Int → CreateErr
deriving DecidableEq, Repr

/-- Score-parsing loop of student.c `set_scores` (lines 169-184): for each of
`nScores` iterations fetch the next token, convert it with `atoi`, and fail
with the invalid-score error (printing the value and the bounds
MINIMUM_SCORE = 0, MAXIMUM_SCORE = 100) if the converted value is above 100
or below 0. -/
def set_scores_loop : List (List Char) → Nat → Except CreateErr (List Int)
  | _, 0 => .ok []
  | [], _ + 1 => .error .nullDerefUB
  | t :: ts, n + 1 =>
    let v := atoi t
    if 100 < v ∨ v < 0 then .error (.invalidScore v 0 100)
    else
      match set_scores_loop ts n with
      | .error e => .error e
      | .ok vs => .ok (v :: vs)

/-- helper.c `add_record_to_list`: traverse to the last node and append. -/
def add_record_to_list : List Record → Record → List Record
  | [], r => [r]
  | x :: xs, r => x :: add_record_to_list xs r

/-- student.c `create_student`: count the comma-separated fields, take the
first token as the name, parse the remaining `nField - 1` tokens as scores,
and append a new record (grade = 0, the unset char) to the store. -/
def create_student (store : List Record) (raw : List Char) : Except CreateErr (List Record) :=
  match strtok_toks raw with
  | [] => .error .nullDerefUB
  | nameTok :: scoreToks =>
    match set_scores_loop scoreToks scoreToks.length with
    | .error e => .error e
    | .ok vs => .ok (add_record_to_list store ⟨nameTok, vs, scoreToks.length, Char.ofNat 0⟩)

/-- student.c line 23: `TEST_WEIGHTS` (C doubles 0.1 ... 0.25, exact as
rationals). -/
def TEST_WEIGHTS : List Rat := [0.1, 0.1, 0.1, 0.1, 0.2, 0.15, 0.25]

/-- student.c line 24: `GRADE_THRESHOLD` (5 entries). -/
def GRADE_THRESHOLD : List Rat := [90, 80, 70, 60, 0]

/-- student.c line 25: `GRADE_LETTER` (5 entries). -/
def GRADE_LETTER : List Char := ['A', 'B', 'C', 'D', 'F']

/-- student.c line 228: `nScoresRequired = sizeof(TEST_WEIGHTS)/sizeof(double)` = 7. -/
def nScoresRequired : Nat := TEST_WEIGHTS.length

/-- The weighted sum of student.c `calculate_grade` (lines 236-239):
`sum += scores[n] * TEST_WEIGHTS[n]` for `n` below the score count, which
the preceding check has pinned to the weight count. -/
def weightedSum (scores : List Int) : Rat :=
  (List.zipWith (fun (s : Int) (w : Rat) => (s : Rat) * w) scores TEST_WEIGHTS).sum

/-- Result of the threshold scan of student.c `calculate_grade`
(lines 241-248).  `found n c` means the loop broke at index `n` assigning
letter `c`; `oobRead n` means iteration `n` read `GRADE_THRESHOLD[n]` past
the end of the 5-entry table (undefined behaviour in C); `ended` means the
loop ran out of iterations without a break. -/
inductive ScanResult where
  | found : Nat → Char → ScanResult
  | oobRead : Nat → ScanResult
  | ended : ScanResult
deriving DecidableEq, Repr

/-- The threshold scan loop body over the remaining loop indices:
`if (sum >= GRADE_THRESHOLD[n]) record->grade = GRADE_LETTER[n]; break;`. -/
def grade_scan_go (sum : Rat) : List Nat → ScanResult
  | [] => .ended
  | n :: ns =>
    match GRADE_THRESHOLD[n]?, GRADE_LETTER[n]? with
    | some t, some c => if t ≤ sum then .found n c else grade_scan_go sum ns
    | _, _ => .oobRead n

/-- The threshold scan of student.c `calculate_grade`: the loop counter runs
over `0 ... nScoresRequired - 1` (the 7-entry weight count) although the
threshold table has only 5 entries. -/
def grade_scan (sum : Rat) : ScanResult :=
  grade_scan_go sum (List.range nScoresRequired)

/-- Failure modes of grading (student.c `calculate_grade`):
the score-count check (reporting name, actual count, expected count), and
the out-of-bounds threshold read the loop can perform when no threshold
matches. -/
inductive GradeErr where
  | scoreCountMismatch : List Char → Nat → Nat → GradeErr
  | oobThresholdRead : Nat → GradeErr
deriving DecidableEq, Repr

/-- student.c `calculate_grade`: reject a record whose score count is not
`nScoresRequired`, otherwise compute the weighted sum and scan the
threshold table, writing the letter into the record's grade field. -/
def calculate_grade (r : Record) : Except GradeErr Record :=
  if r.numberOfScores ≠ nScoresRequired then
    .error (.scoreCountMismatch r.name r.numberOfScores nScoresRequired)
  else
    match grade_scan (weightedSum r.scores) with
    | .found _ c => .ok ⟨r.name, r.scores, r.numberOfScores, c⟩
    | .ended => .ok r
    | .oobRead n => .error (.oobThresholdRead n)

/-- The record produced by a successful `calculate_grade`, and the record
itself when grading fails (the C code mutates in place and the failing
check precedes every mutation). -/
def gradedOf (r : Record) : Record :=
  match calculate_grade r with
  | .ok r2 => r2
  | .error _ => r

/-- student.c `calculate_student_grade`: walk the store in order grading
each record in place; the first failure aborts the walk, leaving the
failing record and everything after it untouched.  The first component is
the error of the aborting record (`none` on full success), the second the
store contents after the walk. -/
def calculate_student_grade : List Record → Option GradeErr × List Record
  | [] => (none, [])
  | r :: rs =>
    match calculate_grade r with
    | .error e => (some e, r :: rs)
    | .ok r2 =>
      match calculate_student_grade rs with
      | (e, rs2) => (e, r2 :: rs2)

/-- C `strcmp` on the two name strings, with only the sign retained (the C
standard specifies only the sign): -1, 0 or 1. -/
def strcmp : List Char → List Char → Int
  | [], [] => 0
  | [], _ :: _ => -1
  | _ :: _, [] => 1
  | a :: as, b :: bs =>
    if a.toNat < b.toNat then -1
    else if b.toNat < a.toNat then 1
    else strcmp as bs

/-- One pass of the bubble sort of helper.c `sort_list_by_name`
(lines 102-140): walk adjacent pairs, swapping the nodes whenever
`strcmp(current->name, next->name) > 0`, and report whether any swap was
made. -/
def sortPass : List Record → Bool × List Record
  | [] => (false, [])
  | [x] => (false, [x])
  | x :: y :: rest =>
    if 0 < strcmp x.name y.name then
      (true, y :: (sortPass (x :: rest)).2)
    else
      ((sortPass (y :: rest)).1, x :: (sortPass (y :: rest)).2)
termination_by l => l.length

/-- Number of out-of-order pairs, the termination measure of the bubble
sort's outer `while (isSwap)` loop. -/
def inversions : List Record → Nat
  | [] => 0
  | x :: xs => xs.countP (fun y => decide (0 < strcmp x.name y.name)) + inversions xs

/-- Helper: `strcmp` is antisymmetric in sign. -/
theorem strcmp_neg : ∀ (a b : List Char), strcmp a b = - strcmp b a := by
  intro a
  induction a with
  | nil =>
    intro b
    cases b <;> simp [strcmp]
  | cons x xs ih =>
    intro b
    cases b with
    | nil => simp [strcmp]
    | cons y ys =>
      by_cases h1 : x.toNat < y.toNat
      · have h2 : ¬ y.toNat < x.toNat := by omega
        simp [strcmp, h1, h2]
      · by_cases h2 : y.toNat < x.toNat
        · simp [strcmp, h1, h2]
        · simp [strcmp, h1, h2, ih ys]

/-- Helper for the termination proof of `bubble_sort`: a pass is a
permutation of its input. -/
theorem sortPass_perm : ∀ (l : List Record), (sortPass l).2.Perm l := by
  intro l
  have key : ∀ (rest : List Record) (x : Record), (sortPass (x :: rest)).2.Perm (x :: rest) := by
    intro rest
    induction rest with
    | nil => intro x; simp [sortPass]
    | cons y rs ih =>
      intro x
      by_cases h : 0 < strcmp x.name y.name
      · simp only [sortPass, if_pos h]
        exact ((ih x).cons y).trans (List.Perm.swap x y rs)
      · simp only [sortPass, if_neg h]
        exact (ih y).cons x
  match l with
  | [] => simp [sortPass]
  | x :: rest => exact key rest x

/-- Helper: a pass that made a swap strictly decreases the inversion count,
and a pass never increases it. -/
theorem sortPass_inversions :
    ∀ (l : List Record),
      inversions (sortPass l).2 ≤ inversions l ∧
        ((sortPass l).1 = true → inversions (sortPass l).2 < inversions l) := by
  intro l
  have key : ∀ (rest : List Record) (x : Record),
      inversions (sortPass (x :: rest)).2 ≤ inversions (x :: rest) ∧
        ((sortPass (x :: rest)).1 = true →
          inversions (sortPass (x :: rest)).2 < inversions (x :: rest)) := by
    intro rest
    induction rest with
    | nil => intro x; simp [sortPass]
    | cons y rs ih =>
      intro x
      by_cases h : 0 < strcmp x.name y.name
      · simp only [sortPass, if_pos h]
        have hperm : (sortPass (x :: rs)).2.Perm (x :: rs) := sortPass_perm _
        have hcount :
            (sortPass (x :: rs)).2.countP (fun z => decide (0 < strcmp y.name z.name)) =
              (x :: rs).countP (fun z => decide (0 < strcmp y.name z.name)) :=
          hperm.countP_eq _
        have hyx : ¬ 0 < strcmp y.name x.name := by
          have := strcmp_neg x.name y.name
          omega
        have hx := (ih x).1
        have e1 : inversions (y :: (sortPass (x :: rs)).2)
            = (sortPass (x :: rs)).2.countP (fun z => decide (0 < strcmp y.name z.name))
              + inversions (sortPass (x :: rs)).2 := rfl
        have e2 : (x :: rs).countP (fun z => decide (0 < strcmp y.name z.name))
            = rs.countP (fun z => decide (0 < strcmp y.name z.name)) := by
          rw [List.countP_cons]
          simp [hyx]
        have e3 : inversions (x :: rs)
            = rs.countP (fun z => decide (0 < strcmp x.name z.name)) + inversions rs := rfl
        have e4 : inversions (x :: y :: rs)
            = (y :: rs).countP (fun z => decide (0 < strcmp x.name z.name))
              + inversions (y :: rs) := rfl
        have e5 : inversions (y :: rs)
            = rs.countP (fun z => decide (0 < strcmp y.name z.name)) + inversions rs := rfl
        have e6 : (y :: rs).countP (fun z => decide (0 < strcmp x.name z.name))
            = rs.countP (fun z => decide (0 < strcmp x.name z.name)) + 1 := by
          rw [List.countP_cons]
          simp [h]
        rw [e3] at hx
        constructor
        · rw [e1, hcount, e2, e4, e5, e6]
          omega
        · intro _
          rw [e1, hcount, e2, e4, e5, e6]
          omega
      · simp only [sortPass, if_neg h]
        have hperm : (sortPass (y :: rs)).2.Perm (y :: rs) := sortPass_perm _
        have hcount :
            (sortPass (y :: rs)).2.countP (fun z => decide (0 < strcmp x.name z.name)) =
              (y :: rs).countP (fun z => decide (0 < strcmp x.name z.name)) :=
          hperm.countP_eq _
        have hy1 := (ih y).1
        have hy2 := (ih y).2
        have e1 : inversions (x :: (sortPass (y :: rs)).2)
            = (sortPass (y :: rs)).2.countP (fun z => decide (0 < strcmp x.name z.name))
              + inversions (sortPass (y :: rs)).2 := rfl
        have e4 : inversions (x :: y :: rs)
            = (y :: rs).countP (fun z => decide (0 < strcmp x.name z.name))
              + inversions (y :: rs) := rfl
        constructor
        · rw [e1, hcount, e4]
          omega
        · intro hflag
          have := hy2 hflag
          rw [e1, hcount, e4]
          omega
  match l with
  | [] => simp [sortPass]
  | x :: rest => exact key rest x

/-- The outer `while (isSwap)` loop of helper.c `sort_list_by_name`:
repeat passes until a pass makes no swap.  Termination is by the
strictly decreasing inversion count. -/
def bubble_sort (l : List Record) : List Record :=
  if h : (sortPass l).1 = true then bubble_sort (sortPass l).2 else (sortPass l).2
termination_by inversions l
decreasing_by exact (sortPass_inversions l).2 h

/-- Failure mode of helper.c `sort_list_by_name`: the `*head == NULL` check
printing ERR_RECORD_EMPTY. -/
inductive SortErr where
  | emptyStore : SortErr
deriving DecidableEq, Repr

/-- helper.c `sort_list_by_name`: fail on a NULL head (which in this
program is exactly the empty store), return a single-node list unchanged,
otherwise bubble-sort by name. -/
def sort_list_by_name : List Record → Except SortErr (List Record)
  | [] => .error .emptyStore
  | [x] => .ok [x]
  | x :: y :: rest => .ok (bubble_sort (x :: y :: rest))

/-- Fold of student.c `calculate_minimum` (lines 465-478): start from
MAXIMUM_SCORE = 100 and take the smaller of the accumulator and
`scores[testNumber]` for each record; `none` marks an out-of-bounds read of
the scores array. -/
def min_loop : List Record → Nat → Rat → Option Rat
  | [], _, acc => some acc
  | r :: rs, t, acc =>
    match r.scores[t]? with
    | none => none
    | some v => min_loop rs t (if acc > (v : Rat) then (v : Rat) else acc)

/-- student.c `calculate_minimum`: always SUCCESS (when no out-of-bounds
read occurs). -/
def calculate_minimum (store : List Record) (t : Nat) : Option (ReturnStatus × Rat) :=
  (min_loop store t 100).map (fun m => (ReturnStatus.SUCCESS, m))

/-- Fold of student.c `calculate_maximum` (lines 488-501): start from
MINIMUM_SCORE = 0 and take the larger value for each record. -/
def max_loop : List Record → Nat → Rat → Option Rat
  | [], _, acc => some acc
  | r :: rs, t, acc =>
    match r.scores[t]? with
    | none => none
    | some v => max_loop rs t (if acc < (v : Rat) then (v : Rat) else acc)

/-- student.c `calculate_maximum`: always SUCCESS (when no out-of-bounds
read occurs). -/
def calculate_maximum (store : List Record) (t : Nat) : Option (ReturnStatus × Rat) :=
  (max_loop store t 0).map (fun m => (ReturnStatus.SUCCESS, m))

/-- Failure mode of student.c `calculate_average`: the guarded division by
zero printing ERR_DIVIDE_BY_ZERO. -/
inductive StatErr where
  | divideByZero : StatErr
deriving DecidableEq, Repr

/-- Sum-and-count loop of student.c `calculate_average` (lines 438-443). -/
def avg_loop : List Record → Nat → Rat → Nat → Option (Rat × Nat)
  | [], _, sum, cnt => some (sum, cnt)
  | r :: rs, t, sum, cnt =>
    match r.scores[t]? with
    | none => none
    | some v => avg_loop rs t (sum + (v : Rat)) (cnt + 1)

/-- student.c `calculate_average`: fail if the store held zero records,
otherwise divide the column sum by the student count. -/
def calculate_average (store : List Record) (t : Nat) : Option (Except StatErr Rat) :=
  match avg_loop store t 0 0 with
  | none => none
  | some (sum, cnt) =>
    if cnt = 0 then some (.error .divideByZero)
    else some (.ok (sum / (cnt : Rat)))

/-- student.c `write_names_and_grades_to_file` (lines 298-313): a failing
internal sort is swallowed (`return SUCCESS` with nothing written);
otherwise one (name, grade) line per record of the sorted store is
written.  The emitted record lines are returned alongside the status. -/
def write_names_and_grades_to_file (store : List Record) :
    ReturnStatus × List (List Char × Char) :=
  match sort_list_by_name store with
  | .error _ => (ReturnStatus.SUCCESS, [])
  | .ok sorted => (ReturnStatus.SUCCESS, sorted.map (fun r => (r.name, r.grade)))

/-! Lemmas about the tokenizer. -/

/-- Helper: a leading comma is skipped by `strtok`. -/
theorem strtok_toks_comma (cs : List Char) : strtok_toks (',' :: cs) = strtok_toks cs := rfl

/-- Helper: behaviour of the scanning accumulator once a token has started. -/
theorem strtok_toks_aux_ne :
    ∀ (cs : List Char) (acc : List Char), acc ≠ [] →
      strtok_toks_aux cs acc
        = (acc.reverse ++ cs.takeWhile (fun d => d ≠ ','))
            :: strtok_toks (cs.dropWhile (fun d => d ≠ ',')) := by
  intro cs
  induction cs with
  | nil =>
    intro acc hacc
    simp [strtok_toks_aux, strtok_toks, hacc]
  | cons d ds ih =>
    intro acc hacc
    by_cases hd : d = ','
    · subst hd
      simp [strtok_toks_aux, hacc, List.takeWhile_cons, List.dropWhile_cons, strtok_toks_comma,
        strtok_toks]
    · simp only [strtok_toks_aux, if_neg hd, ih (d :: acc) (by simp)]
      simp [List.takeWhile_cons, List.dropWhile_cons, hd]

/-- Helper: a `strtok` call starting at a non-separator character returns the
maximal separator-free token. -/
theorem strtok_toks_tok (c : Char) (cs : List Char) (hc : c ≠ ',') :
    strtok_toks (c :: cs)
      = (c :: cs.takeWhile (fun d => d ≠ ','))
          :: strtok_toks (cs.dropWhile (fun d => d ≠ ',')) := by
  have h := strtok_toks_aux_ne cs [c] (by simp)
  simpa [strtok_toks, strtok_toks_aux, hc] using h

/-- Helper: the token sequence is what iterating single `strtok` calls
produces. -/
theorem strtok_toks_step (s : List Char) :
    strtok_toks s
      = match strtok_step s with
        | (none, _) => []
        | (some t, rest) => t :: strtok_toks rest := by
  induction s with
  | nil => rfl
  | cons c cs ih =>
    by_cases hc : c = ','
    · subst hc
      rw [strtok_toks_comma, ih]
      have hstep : strtok_step (',' :: cs) = strtok_step cs := by
        simp [strtok_step, List.dropWhile_cons]
      rw [hstep]
    · rw [strtok_toks_tok c cs hc]
      simp [strtok_step, List.dropWhile_cons, hc]

/-- Helper: `dropWhile` never lengthens a list. -/
theorem list_length_dropWhile_le (p : Char → Bool) :
    ∀ (l : List Char), (l.dropWhile p).length ≤ l.length := by
  intro l
  induction l with
  | nil => simp
  | cons c cs ih =>
    by_cases hp : p c
    · rw [List.dropWhile_cons, if_pos hp]
      exact Nat.le_trans ih (by simp)
    · rw [List.dropWhile_cons, if_neg hp]

/-- Helper: each successful `strtok` call strictly shrinks the saved rest. -/
theorem strtok_step_rest_lt (s t rest : List Char)
    (h : strtok_step s = (some t, rest)) : rest.length < s.length := by
  unfold strtok_step at h
  cases hds : s.dropWhile (fun c => c = ',') with
  | nil => rw [hds] at h; simp at h
  | cons c cs =>
    rw [hds] at h
    have h1 : (s.dropWhile (fun c => c = ',')).length ≤ s.length :=
      list_length_dropWhile_le _ s
    have h2 : (cs.dropWhile (fun d => d ≠ ',')).length ≤ cs.length :=
      list_length_dropWhile_le _ cs
    rw [hds] at h1
    simp only [Prod.mk.injEq, Option.some.injEq] at h
    rw [← h.2]
    simp only [List.length_cons] at h1
    omega

/-- Helper: `s.length + 1` calls of `get_next_token` exhaust the tokens of
`s`, yielding exactly the `strtok` token sequence. -/
theorem token_run_eq_strtok_toks :
    ∀ (n : Nat) (s : List Char), s.length < n → token_run n s = strtok_toks s := by
  intro n
  induction n with
  | zero => intro s h; omega
  | succ m ih =>
    intro s h
    rw [strtok_toks_step s]
    cases hstep : strtok_step s with
    | mk tok rest =>
      cases tok with
      | none => simp [token_run, hstep]
      | some t =>
        have hlt := strtok_step_rest_lt s t rest hstep
        simp only [token_run, hstep]
        rw [ih rest (by omega)]

/-- Helper: the counting loop of `get_token_count` counts the tokens the
consumption loop yields. -/
theorem count_tokens_loop_eq :
    ∀ (n : Nat) (s : List Char), count_tokens_loop n s = (token_run n s).length := by
  intro n
  induction n with
  | zero => intro s; rfl
  | succ m ih =>
    intro s
    cases hstep : strtok_step s with
    | mk tok rest =>
      cases tok with
      | none => simp [count_tokens_loop, token_run, hstep]
      | some t => simp [count_tokens_loop, token_run, hstep, ih, Nat.add_comm]

/-- Helper: the spec-side field splitter always starts with the maximal
comma-free prefix. -/
theorem fields_per_spec_decomp :
    ∀ (cs : List Char),
      fields_per_spec cs
        = cs.takeWhile (fun d => d ≠ ',')
            :: (match cs.dropWhile (fun d => d ≠ ',') with
                | [] => []
                | _ :: rest => fields_per_spec rest) := by
  intro cs
  induction cs with
  | nil => rfl
  | cons c cs ih =>
    by_cases hc : c = ','
    · subst hc
      simp [fields_per_spec, List.takeWhile_cons, List.dropWhile_cons]
    · simp only [fields_per_spec, if_neg hc, ih]
      simp [List.takeWhile_cons, List.dropWhile_cons, hc]

/-- Helper: the head element of a `dropWhile` result fails the predicate. -/
theorem dropWhile_head_false {p : Char → Bool} :
    ∀ (l : List Char) (a : Char) (t : List Char), l.dropWhile p = a :: t → p a = false := by
  intro l
  induction l with
  | nil => intro a t h; simp at h
  | cons c cs ih =>
    intro a t h
    by_cases hp : p c
    · rw [List.dropWhile_cons, if_pos hp] at h
      exact ih a t h
    · rw [List.dropWhile_cons, if_neg hp] at h
      cases h
      simpa using hp

/-- Helper (bounded form): `strtok` tokenization is the spec-side field
split with the empty fields removed. -/
theorem strtok_toks_eq_filter_aux :
    ∀ (n : Nat) (s : List Char), s.length ≤ n →
      strtok_toks s = (fields_per_spec s).filter (fun f => !f.isEmpty) := by
  intro n
  induction n with
  | zero =>
    intro s hs
    have hnil : s = [] := List.eq_nil_of_length_eq_zero (by omega)
    subst hnil; rfl
  | succ m ih =>
    intro s hs
    match s with
    | [] => rfl
    | c :: cs =>
      by_cases hc : c = ','
      · subst hc
        rw [strtok_toks_comma]
        have hf : fields_per_spec (',' :: cs) = [] :: fields_per_spec cs := by
          simp [fields_per_spec]
        rw [hf, List.filter_cons]
        simp only [List.isEmpty_nil, Bool.not_true, Bool.false_eq_true, if_false]
        exact ih cs (by simp only [List.length_cons] at hs; omega)
      · rw [strtok_toks_tok c cs hc, fields_per_spec_decomp (c :: cs)]
        rw [List.filter_cons]
        have htake : (c :: cs).takeWhile (fun d => d ≠ ',') = c :: cs.takeWhile (fun d => d ≠ ',') := by
          simp [List.takeWhile_cons, hc]
        have hdrop : (c :: cs).dropWhile (fun d => d ≠ ',') = cs.dropWhile (fun d => d ≠ ',') := by
          simp [List.dropWhile_cons, hc]
        rw [htake, hdrop]
        simp only [List.isEmpty_cons, Bool.not_false, if_true]
        congr 1
        cases hD : cs.dropWhile (fun d => d ≠ ',') with
        | nil => rfl
        | cons d rest =>
          have hd : d = ',' := by
            have hh := dropWhile_head_false cs d rest hD
            simpa using hh
          subst hd
          have hlen1 : (cs.dropWhile (fun d => d ≠ ',')).length ≤ cs.length :=
            list_length_dropWhile_le _ cs
          rw [hD] at hlen1
          simp only [List.length_cons] at hlen1
          have hcs : cs.length ≤ m := by
            simp only [List.length_cons] at hs
            omega
          show strtok_toks (',' :: rest) = List.filter (fun f => !f.isEmpty) (fields_per_spec rest)
          rw [strtok_toks_comma]
          exact ih rest (by omega)

/-- Helper: `strtok` tokenization is the spec-side field split with the
empty fields removed. -/
theorem strtok_toks_eq_filter (s : List Char) :
    strtok_toks s = (fields_per_spec s).filter (fun f => !f.isEmpty) :=
  strtok_toks_eq_filter_aux s.length s (Nat.le_refl _)

/-- Helper: `takeWhile` passes over a comma-free prefix. -/
theorem takeWhile_append_of (a b : List Char) (h : ∀ c ∈ a, c ≠ ',') :
    (a ++ b).takeWhile (fun d => d ≠ ',') = a ++ b.takeWhile (fun d => d ≠ ',') := by
  induction a with
  | nil => simp
  | cons c a2 ih =>
    have hc : c ≠ ',' := h c (by simp)
    have hpc : (decide (c ≠ ',')) = true := by simp [hc]
    rw [List.cons_append, List.takeWhile_cons]
    simp only [hpc, if_true]
    rw [ih (fun d hd => h d (by simp [hd])), List.cons_append]

/-- Helper: `dropWhile` consumes a comma-free prefix. -/
theorem dropWhile_append_of (a b : List Char) (h : ∀ c ∈ a, c ≠ ',') :
    (a ++ b).dropWhile (fun d => d ≠ ',') = b.dropWhile (fun d => d ≠ ',') := by
  induction a with
  | nil => simp
  | cons c a2 ih =>
    have hc : c ≠ ',' := h c (by simp)
    have hpc : (decide (c ≠ ',')) = true := by simp [hc]
    rw [List.cons_append, List.dropWhile_cons]
    simp only [hpc, if_true]
    exact ih (fun d hd => h d (by simp [hd]))

/-- Helper: a nonempty comma-free field followed by a comma is one token. -/
theorem strtok_toks_append (a rest : List Char) (ha : a ≠ []) (hc : ∀ c ∈ a, c ≠ ',') :
    strtok_toks (a ++ ',' :: rest) = a :: strtok_toks rest := by
  match a with
  | c :: a2 =>
    have hcc : c ≠ ',' := hc c (by simp)
    rw [List.cons_append, strtok_toks_tok c (a2 ++ ',' :: rest) hcc]
    rw [takeWhile_append_of a2 (',' :: rest) (fun d hd => hc d (by simp [hd]))]
    rw [dropWhile_append_of a2 (',' :: rest) (fun d hd => hc d (by simp [hd]))]
    simp [List.takeWhile_cons, List.dropWhile_cons, strtok_toks_comma]

/-- Helper: a nonempty comma-free string is a single token. -/
theorem strtok_toks_single (a : List Char) (ha : a ≠ []) (hc : ∀ c ∈ a, c ≠ ',') :
    strtok_toks a = [a] := by
  match a with
  | c :: a2 =>
    have hcc : c ≠ ',' := hc c (by simp)
    rw [strtok_toks_tok c a2 hcc]
    have h1 := takeWhile_append_of a2 [] (fun d hd => hc d (by simp [hd]))
    have h2 := dropWhile_append_of a2 [] (fun d hd => hc d (by simp [hd]))
    simp only [List.append_nil] at h1 h2
    rw [h1, h2]
    simp [show strtok_toks ([] : List Char) = [] from rfl]

/-! Lemmas about record creation. -/

/-- Helper: appending a record reaches the tail of the list. -/
theorem add_record_to_list_eq :
    ∀ (l : List Record) (r : Record), add_record_to_list l r = l ++ [r] := by
  intro l r
  induction l with
  | nil => rfl
  | cons x xs ih => simp [add_record_to_list, ih]

/-- Helper: the score loop succeeds and returns the converted values when
every token converts into the score range. -/
theorem set_scores_loop_ok :
    ∀ (ts : List (List Char)),
      (∀ t ∈ ts, ¬(100 < atoi t ∨ atoi t < 0)) →
      set_scores_loop ts ts.length = .ok (ts.map atoi) := by
  intro ts
  induction ts with
  | nil => intro _; rfl
  | cons t ts ih =>
    intro h
    have ht := h t (by simp)
    have hrest : ∀ u ∈ ts, ¬(100 < atoi u ∨ atoi u < 0) := fun u hu => h u (by simp [hu])
    simp only [List.length_cons, set_scores_loop, if_neg ht, ih hrest, List.map_cons]

/-- Helper: the score loop aborts with the invalid-score error, reporting an
out-of-range converted value and the bounds 0 and 100, when some token
converts out of range. -/
theorem set_scores_loop_err :
    ∀ (ts : List (List Char)),
      (∃ t ∈ ts, 100 < atoi t ∨ atoi t < 0) →
      ∃ v, (100 < v ∨ v < 0) ∧ (∃ t ∈ ts, atoi t = v) ∧
        set_scores_loop ts ts.length = .error (.invalidScore v 0 100) := by
  intro ts
  induction ts with
  | nil =>
    rintro ⟨t, ht, _⟩
    simp at ht
  | cons t ts ih =>
    intro h
    by_cases hbad : 100 < atoi t ∨ atoi t < 0
    · exact ⟨atoi t, hbad, ⟨t, by simp, rfl⟩, by
        simp only [List.length_cons, set_scores_loop, if_pos hbad]⟩
    · obtain ⟨u, hu, hbu⟩ := h
      have hu2 : u ∈ ts := by
        rcases List.mem_cons.mp hu with h1 | h1
        · subst h1; exact absurd hbu hbad
        · exact h1
      obtain ⟨v, hv, ⟨w, hw, hwv⟩, heq⟩ := ih ⟨u, hu2, hbu⟩
      refine ⟨v, hv, ⟨w, by simp [hw], hwv⟩, ?_⟩
      simp only [List.length_cons, set_scores_loop, if_neg hbad, heq]

/-! Lemmas about the weighted sum and the threshold scan. -/

/-- Helper: a weighted sum of nonnegative scores against nonnegative weights
is nonnegative. -/
theorem zip_sum_nonneg :
    ∀ (sc : List Int) (ws : List Rat),
      (∀ s ∈ sc, 0 ≤ s) → (∀ w ∈ ws, 0 ≤ w) →
      0 ≤ (List.zipWith (fun (s : Int) (w : Rat) => (s : Rat) * w) sc ws).sum := by
  intro sc
  induction sc with
  | nil => intro ws _ _; simp
  | cons s sc ih =>
    intro ws hs hw
    cases ws with
    | nil => simp
    | cons w ws =>
      simp only [List.zipWith_cons_cons, List.sum_cons]
      have h1 : (0 : Rat) ≤ (s : Rat) * w := by
        have hs0 : (0 : Int) ≤ s := hs s (by simp)
        have hw0 : (0 : Rat) ≤ w := hw w (by simp)
        have : (0 : Rat) ≤ (s : Rat) := by exact_mod_cast hs0
        exact mul_nonneg this hw0
      have h2 := ih ws (fun u hu => hs u (by simp [hu])) (fun u hu => hw u (by simp [hu]))
      linarith

/-- Helper: the weights of the default table are nonnegative. -/
theorem test_weights_nonneg : ∀ w ∈ TEST_WEIGHTS, (0 : Rat) ≤ w := by
  intro w hw
  simp only [TEST_WEIGHTS, List.mem_cons, List.not_mem_nil, or_false] at hw
  rcases hw with h | h | h | h | h | h | h <;> subst h <;> norm_num

/-- Helper: scores within the domain give a nonnegative weighted sum. -/
theorem weightedSum_nonneg (sc : List Int) (h : ∀ s ∈ sc, 0 ≤ s) :
    0 ≤ weightedSum sc :=
  zip_sum_nonneg sc TEST_WEIGHTS h test_weights_nonneg

/-- Helper: all-zero scores have weighted sum zero. -/
theorem weightedSum_zero :
    ∀ (sc : List Int) (ws : List Rat), (∀ s ∈ sc, s = 0) →
      (List.zipWith (fun (s : Int) (w : Rat) => (s : Rat) * w) sc ws).sum = 0 := by
  intro sc
  induction sc with
  | nil => intro ws _; simp
  | cons s sc ih =>
    intro ws h
    cases ws with
    | nil => simp
    | cons w ws =>
      have hs0 : s = 0 := h s (by simp)
      subst hs0
      simp only [List.zipWith_cons_cons, List.sum_cons, Int.cast_zero, zero_mul, zero_add]
      exact ih ws (fun u hu => h u (by simp [hu]))

/-- Helper: for a nonnegative sum the threshold scan breaks at the first
matching entry of the 5-entry table, never past index 4. -/
theorem grade_scan_eq (sum : Rat) (h0 : 0 ≤ sum) :
    grade_scan sum =
      if (90 : Rat) ≤ sum then .found 0 'A'
      else if (80 : Rat) ≤ sum then .found 1 'B'
      else if (70 : Rat) ≤ sum then .found 2 'C'
      else if (60 : Rat) ≤ sum then .found 3 'D'
      else .found 4 'F' := by
  have hrange : List.range nScoresRequired = [0, 1, 2, 3, 4, 5, 6] := rfl
  have l0 : GRADE_THRESHOLD[(0 : Nat)]? = some 90 := rfl
  have l1 : GRADE_THRESHOLD[(1 : Nat)]? = some 80 := rfl
  have l2 : GRADE_THRESHOLD[(2 : Nat)]? = some 70 := rfl
  have l3 : GRADE_THRESHOLD[(3 : Nat)]? = some 60 := rfl
  have l4 : GRADE_THRESHOLD[(4 : Nat)]? = some 0 := rfl
  have g0 : GRADE_LETTER[(0 : Nat)]? = some 'A' := rfl
  have g1 : GRADE_LETTER[(1 : Nat)]? = some 'B' := rfl
  have g2 : GRADE_LETTER[(2 : Nat)]? = some 'C' := rfl
  have g3 : GRADE_LETTER[(3 : Nat)]? = some 'D' := rfl
  have g4 : GRADE_LETTER[(4 : Nat)]? = some 'F' := rfl
  rw [grade_scan, hrange]
  by_cases h90 : (90 : Rat) ≤ sum
  · simp [grade_scan_go, l0, g0, h90]
  · by_cases h80 : (80 : Rat) ≤ sum
    · simp [grade_scan_go, l0, g0, l1, g1, h90, h80]
    · by_cases h70 : (70 : Rat) ≤ sum
      · simp [grade_scan_go, l0, g0, l1, g1, l2, g2, h90, h80, h70]
      · by_cases h60 : (60 : Rat) ≤ sum
        · simp [grade_scan_go, l0, g0, l1, g1, l2, g2, l3, g3, h90, h80, h70, h60]
        · simp [grade_scan_go, l0, g0, l1, g1, l2, g2, l3, g3, l4, g4, h90, h80, h70, h60, h0]

/-! Lemmas about the bubble sort. -/

/-- Helper: a swap-free pass returns its input unchanged. -/
theorem sortPass_false_eq :
    ∀ (l l2 : List Record), sortPass l = (false, l2) → l2 = l := by
  have key : ∀ (rest : List Record) (x : Record) (l2 : List Record),
      sortPass (x :: rest) = (false, l2) → l2 = x :: rest := by
    intro rest
    induction rest with
    | nil =>
      intro x l2 h
      simp only [sortPass, Prod.mk.injEq] at h
      exact h.2.symm
    | cons y rs ih =>
      intro x l2 h
      by_cases hxy : 0 < strcmp x.name y.name
      · simp only [sortPass, if_pos hxy, Prod.mk.injEq] at h
        exact absurd h.1 (by simp)
      · simp only [sortPass, if_neg hxy, Prod.mk.injEq] at h
        have hp : sortPass (y :: rs) = (false, (sortPass (y :: rs)).2) := by
          rw [← h.1]
        have := ih y (sortPass (y :: rs)).2 hp
        rw [← h.2, this]
  intro l l2 h
  match l with
  | [] =>
    simp only [sortPass, Prod.mk.injEq] at h
    exact h.2.symm
  | x :: rest => exact key rest x l2 h

/-- Helper: a swap-free pass certifies that the list is sorted by name. -/
theorem sortPass_false_sorted :
    ∀ (l l2 : List Record), sortPass l = (false, l2) →
      List.Chain' (fun a b => strcmp a.name b.name ≤ 0) l := by
  have key : ∀ (rest : List Record) (x : Record) (l2 : List Record),
      sortPass (x :: rest) = (false, l2) →
      List.Chain' (fun a b => strcmp a.name b.name ≤ 0) (x :: rest) := by
    intro rest
    induction rest with
    | nil => intro x l2 _; simp
    | cons y rs ih =>
      intro x l2 h
      by_cases hxy : 0 < strcmp x.name y.name
      · simp only [sortPass, if_pos hxy, Prod.mk.injEq] at h
        exact absurd h.1 (by simp)
      · simp only [sortPass, if_neg hxy, Prod.mk.injEq] at h
        have hp : sortPass (y :: rs) = (false, (sortPass (y :: rs)).2) := by
          rw [← h.1]
        have hchain := ih y (sortPass (y :: rs)).2 hp
        exact List.chain'_cons.mpr ⟨by omega, hchain⟩
  intro l l2 h
  match l with
  | [] => simp
  | x :: rest => exact key rest x l2 h

/-- Helper: a pass over a sorted list makes no swap and keeps the list. -/
theorem sorted_sortPass :
    ∀ (l : List Record), List.Chain' (fun a b => strcmp a.name b.name ≤ 0) l →
      sortPass l = (false, l) := by
  have key : ∀ (rest : List Record) (x : Record),
      List.Chain' (fun a b => strcmp a.name b.name ≤ 0) (x :: rest) →
      sortPass (x :: rest) = (false, x :: rest) := by
    intro rest
    induction rest with
    | nil => intro x _; simp [sortPass]
    | cons y rs ih =>
      intro x h
      obtain ⟨hxy, hchain⟩ := List.chain'_cons.mp h
      have hns : ¬ 0 < strcmp x.name y.name := by omega
      simp only [sortPass, if_neg hns, ih y hchain]
  intro l h
  match l with
  | [] => simp [sortPass]
  | x :: rest => exact key rest x h

/-- Helper: unfolding of the outer sorting loop when a swap occurred. -/
theorem bubble_sort_true (l : List Record) (h : (sortPass l).1 = true) :
    bubble_sort l = bubble_sort (sortPass l).2 := by
  conv_lhs => rw [bubble_sort.eq_def]
  rw [dif_pos h]

/-- Helper: unfolding of the outer sorting loop at the fixpoint. -/
theorem bubble_sort_false (l : List Record) (h : ¬ (sortPass l).1 = true) :
    bubble_sort l = (sortPass l).2 := by
  conv_lhs => rw [bubble_sort.eq_def]
  rw [dif_neg h]

/-- Helper: the bubble sort permutes the store. -/
theorem bubble_sort_perm : ∀ (l : List Record), (bubble_sort l).Perm l := by
  intro l
  generalize hN : inversions l = N
  induction N using Nat.strong_induction_on generalizing l with
  | _ N ih =>
    by_cases h : (sortPass l).1 = true
    · rw [bubble_sort_true l h]
      have hlt : inversions (sortPass l).2 < inversions l := (sortPass_inversions l).2 h
      have hrec := ih (inversions (sortPass l).2) (by omega) (sortPass l).2 rfl
      exact hrec.trans (sortPass_perm l)
    · rw [bubble_sort_false l h]
      exact sortPass_perm l

/-- Helper: the bubble sort result is sorted by name. -/
theorem bubble_sort_sorted :
    ∀ (l : List Record), List.Chain' (fun a b => strcmp a.name b.name ≤ 0) (bubble_sort l) := by
  intro l
  generalize hN : inversions l = N
  induction N using Nat.strong_induction_on generalizing l with
  | _ N ih =>
    by_cases h : (sortPass l).1 = true
    · rw [bubble_sort_true l h]
      have hlt : inversions (sortPass l).2 < inversions l := (sortPass_inversions l).2 h
      exact ih (inversions (sortPass l).2) (by omega) (sortPass l).2 rfl
    · rw [bubble_sort_false l h]
      have hp : sortPass l = (false, (sortPass l).2) := by
        have hb : (sortPass l).1 = false := by
          cases hb2 : (sortPass l).1
          · rfl
          · exact absurd hb2 h
        rw [← hb]
      have hsorted := sortPass_false_sorted l (sortPass l).2 hp
      have heq := sortPass_false_eq l (sortPass l).2 hp
      rw [heq]
      exact hsorted

/-- Helper: the bubble sort leaves a sorted list unchanged. -/
theorem bubble_sort_of_sorted (l : List Record)
    (h : List.Chain' (fun a b => strcmp a.name b.name ≤ 0) l) : bubble_sort l = l := by
  have hp := sorted_sortPass l h
  have h1 : ¬ (sortPass l).1 = true := by rw [hp]; simp
  rw [bubble_sort_false l h1, hp]

/-- Helper: `sort_list_by_name` returns a sorted nonempty store unchanged. -/
theorem sort_list_by_name_of_sorted (l : List Record) (hne : l ≠ [])
    (h : List.Chain' (fun a b => strcmp a.name b.name ≤ 0) l) :
    sort_list_by_name l = .ok l := by
  match l with
  | [x] => rfl
  | a :: b :: r =>
    show Except.ok (bubble_sort (a :: b :: r)) = Except.ok (a :: b :: r)
    rw [bubble_sort_of_sorted (a :: b :: r) h]

/-! Lemmas about the statistics folds. -/

/-- Helper: the C min fold in doubles agrees with the integer min fold when
every read is in bounds. -/
theorem min_loop_eq_foldl :
    ∀ (store : List Record) (t : Nat) (a : Int),
      (∀ r ∈ store, t < r.scores.length) →
      min_loop store t (a : Rat)
        = some (((store.foldl (fun acc r => min acc ((r.scores[t]?).getD 0)) a : Int) : Rat)) := by
  intro store
  induction store with
  | nil => intro t a _; rfl
  | cons r rs ih =>
    intro t a h
    have ht : t < r.scores.length := h r (by simp)
    have hv : r.scores[t]? = some r.scores[t] := List.getElem?_eq_getElem ht
    simp only [min_loop, hv, List.foldl_cons, Option.getD_some]
    have harith : (if (a : Rat) > ((r.scores[t] : Int) : Rat) then ((r.scores[t] : Int) : Rat)
        else (a : Rat)) = ((min a r.scores[t] : Int) : Rat) := by
      by_cases hav : r.scores[t] < a
      · have hc : (a : Rat) > ((r.scores[t] : Int) : Rat) := by exact_mod_cast hav
        rw [if_pos hc]
        congr 1
        omega
      · have hc : ¬ (a : Rat) > ((r.scores[t] : Int) : Rat) := by
          simp only [gt_iff_lt, not_lt]
          exact_mod_cast Int.not_lt.mp hav
        rw [if_neg hc]
        congr 1
        omega
    rw [harith]
    exact ih t (min a r.scores[t]) (fun r2 hr2 => h r2 (by simp [hr2]))

/-- Helper: the C max fold in doubles agrees with the integer max fold when
every read is in bounds. -/
theorem max_loop_eq_foldl :
    ∀ (store : List Record) (t : Nat) (a : Int),
      (∀ r ∈ store, t < r.scores.length) →
      max_loop store t (a : Rat)
        = some (((store.foldl (fun acc r => max acc ((r.scores[t]?).getD 0)) a : Int) : Rat)) := by
  intro store
  induction store with
  | nil => intro t a _; rfl
  | cons r rs ih =>
    intro t a h
    have ht : t < r.scores.length := h r (by simp)
    have hv : r.scores[t]? = some r.scores[t] := List.getElem?_eq_getElem ht
    simp only [max_loop, hv, List.foldl_cons, Option.getD_some]
    have harith : (if (a : Rat) < ((r.scores[t] : Int) : Rat) then ((r.scores[t] : Int) : Rat)
        else (a : Rat)) = ((max a r.scores[t] : Int) : Rat) := by
      by_cases hav : a < r.scores[t]
      · have hc : (a : Rat) < ((r.scores[t] : Int) : Rat) := by exact_mod_cast hav
        rw [if_pos hc]
        congr 1
        omega
      · have hc : ¬ (a : Rat) < ((r.scores[t] : Int) : Rat) := by
          simp only [not_lt]
          exact_mod_cast Int.not_lt.mp hav
        rw [if_neg hc]
        congr 1
        omega
    rw [harith]
    exact ih t (max a r.scores[t]) (fun r2 hr2 => h r2 (by simp [hr2]))

/-- Helper: an integer min fold never exceeds its seed. -/
theorem foldl_min_le_init : ∀ (l : List Int) (a : Int), l.foldl min a ≤ a := by
  intro l
  induction l with
  | nil => intro a; simp
  | cons x xs ih =>
    intro a
    simp only [List.foldl_cons]
    exact le_trans (ih (min a x)) (min_le_left a x)

/-- Helper: an integer min fold is a lower bound of the list. -/
theorem foldl_min_le_mem :
    ∀ (l : List Int) (a v : Int), v ∈ l → l.foldl min a ≤ v := by
  intro l
  induction l with
  | nil => intro a v hv; simp at hv
  | cons x xs ih =>
    intro a v hv
    simp only [List.foldl_cons]
    rcases List.mem_cons.mp hv with h1 | h1
    · subst h1
      exact le_trans (foldl_min_le_init xs (min a v)) (min_le_right a v)
    · exact ih (min a x) v h1

/-- Helper: an integer min fold returns its seed or a list element. -/
theorem foldl_min_cases :
    ∀ (l : List Int) (a : Int), l.foldl min a = a ∨ l.foldl min a ∈ l := by
  intro l
  induction l with
  | nil => intro a; simp
  | cons x xs ih =>
    intro a
    simp only [List.foldl_cons]
    rcases ih (min a x) with h1 | h1
    · rcases min_choice a x with h2 | h2
      · left; rw [h1, h2]
      · right; rw [h1, h2]; simp
    · right; simp [h1]

/-- Helper: an integer max fold never drops below its seed. -/
theorem foldl_max_ge_init : ∀ (l : List Int) (a : Int), a ≤ l.foldl max a := by
  intro l
  induction l with
  | nil => intro a; simp
  | cons x xs ih =>
    intro a
    simp only [List.foldl_cons]
    exact le_trans (le_max_left a x) (ih (max a x))

/-- Helper: an integer max fold is an upper bound of the list. -/
theorem foldl_max_ge_mem :
    ∀ (l : List Int) (a v : Int), v ∈ l → v ≤ l.foldl max a := by
  intro l
  induction l with
  | nil => intro a v hv; simp at hv
  | cons x xs ih =>
    intro a v hv
    simp only [List.foldl_cons]
    rcases List.mem_cons.mp hv with h1 | h1
    · subst h1
      exact le_trans (le_max_right a v) (foldl_max_ge_init xs (max a v))
    · exact ih (max a x) v h1

/-- Helper: an integer max fold returns its seed or a list element. -/
theorem foldl_max_cases :
    ∀ (l : List Int) (a : Int), l.foldl max a = a ∨ l.foldl max a ∈ l := by
  intro l
  induction l with
  | nil => intro a; simp
  | cons x xs ih =>
    intro a
    simp only [List.foldl_cons]
    rcases ih (max a x) with h1 | h1
    · rcases max_choice a x with h2 | h2
      · left; rw [h1, h2]
      · right; rw [h1, h2]; simp
    · right; simp [h1]

/-- Helper: the sum-and-count loop of the average accumulates the column sum
and the store length. -/
theorem avg_loop_eq :
    ∀ (store : List Record) (t : Nat) (s : Rat) (c : Nat),
      (∀ r ∈ store, t < r.scores.length) →
      avg_loop store t s c
        = some (s + (store.map (fun r => (((r.scores[t]?).getD 0 : Int) : Rat))).sum,
            c + store.length) := by
  intro store
  induction store with
  | nil => intro t s c _; simp [avg_loop]
  | cons r rs ih =>
    intro t s c h
    have ht : t < r.scores.length := h r (by simp)
    have hv : r.scores[t]? = some r.scores[t] := List.getElem?_eq_getElem ht
    simp only [avg_loop, hv]
    rw [ih t (s + ((r.scores[t] : Int) : Rat)) (c + 1) (fun r2 hr2 => h r2 (by simp [hr2]))]
    simp only [List.map_cons, List.sum_cons, hv, Option.getD_some, List.length_cons]
    have e1 : s + ((r.scores[t] : Int) : Rat)
          + (rs.map (fun r2 => (((r2.scores[t]?).getD 0 : Int) : Rat))).sum
        = s + (((r.scores[t] : Int) : Rat)
          + (rs.map (fun r2 => (((r2.scores[t]?).getD 0 : Int) : Rat))).sum) := by ring
    have e2 : c + 1 + rs.length = c + (rs.length + 1) := by omega
    rw [e1, e2]

/-! Claim theorems. -/

/-- C1: for every record whose scores have arity 7, with each score in
[0,100], `calculate_grade` computes the weighted sum against TEST_WEIGHTS
and assigns the letter of the first threshold-table entry (scanned from
highest to lowest) whose threshold is at most the sum; the scan always
breaks at an index at most 4, so every such sum maps to exactly one letter
and the loop never reads past the end of the 5-entry threshold table even
though its bound is the 7-entry weight count; a weighted sum of exactly 90
yields letter A and all-zero scores yield F. -/
theorem C1_grade_scan_correct (r : Record)
    (h7 : r.numberOfScores = 7) (hlen : r.scores.length = 7)
    (hrange : ∀ s ∈ r.scores, 0 ≤ s ∧ s ≤ 100) :
    ∃ k t c, k ≤ 4 ∧
      GRADE_THRESHOLD[k]? = some t ∧ GRADE_LETTER[k]? = some c ∧
      t ≤ weightedSum r.scores ∧
      (∀ j t2, j < k → GRADE_THRESHOLD[j]? = some t2 → weightedSum r.scores < t2) ∧
      grade_scan (weightedSum r.scores) = ScanResult.found k c ∧
      calculate_grade r = .ok ⟨r.name, r.scores, r.numberOfScores, c⟩ ∧
      (weightedSum r.scores = 90 → c = 'A') ∧
      ((∀ s ∈ r.scores, s = 0) → c = 'F') := by
  have h0 : 0 ≤ weightedSum r.scores := weightedSum_nonneg _ (fun s hs => (hrange s hs).1)
  have hscan := grade_scan_eq (weightedSum r.scores) h0
  have hns : nScoresRequired = 7 := rfl
  have hcg : ∀ (k : Nat) (c : Char),
      grade_scan (weightedSum r.scores) = ScanResult.found k c →
      calculate_grade r = .ok ⟨r.name, r.scores, r.numberOfScores, c⟩ := by
    intro k c hfound
    unfold calculate_grade
    rw [if_neg (by rw [h7, hns]; exact fun hh => hh rfl)]
    rw [hfound]
  have hzero : (∀ s ∈ r.scores, s = 0) → weightedSum r.scores = 0 := by
    intro hz
    exact weightedSum_zero r.scores TEST_WEIGHTS hz
  by_cases h90 : (90 : Rat) ≤ weightedSum r.scores
  · have hfound : grade_scan (weightedSum r.scores) = ScanResult.found 0 'A' := by
      rw [hscan]; simp [h90]
    refine ⟨0, 90, 'A', by omega, rfl, rfl, h90, ?_, hfound, hcg 0 'A' hfound, fun _ => rfl, ?_⟩
    · intro j t2 hj _; omega
    · intro hz
      exfalso
      have hz0 := hzero hz
      rw [hz0] at h90
      norm_num at h90
  · by_cases h80 : (80 : Rat) ≤ weightedSum r.scores
    · have hfound : grade_scan (weightedSum r.scores) = ScanResult.found 1 'B' := by
        rw [hscan]; simp [h90, h80]
      refine ⟨1, 80, 'B', by omega, rfl, rfl, h80, ?_, hfound, hcg 1 'B' hfound, ?_, ?_⟩
      · intro j t2 hj hl
        interval_cases j
        rw [show GRADE_THRESHOLD[(0 : Nat)]? = some 90 from rfl] at hl
        injection hl with hl2
        rw [← hl2]
        exact not_le.mp h90
      · intro h9
        exfalso
        rw [h9] at h90
        exact h90 (by norm_num)
      · intro hz
        exfalso
        have hz0 := hzero hz
        rw [hz0] at h80
        norm_num at h80
    · by_cases h70 : (70 : Rat) ≤ weightedSum r.scores
      · have hfound : grade_scan (weightedSum r.scores) = ScanResult.found 2 'C' := by
          rw [hscan]; simp [h90, h80, h70]
        refine ⟨2, 70, 'C', by omega, rfl, rfl, h70, ?_, hfound, hcg 2 'C' hfound, ?_, ?_⟩
        · intro j t2 hj hl
          interval_cases j
          · rw [show GRADE_THRESHOLD[(0 : Nat)]? = some 90 from rfl] at hl
            injection hl with hl2
            rw [← hl2]
            exact not_le.mp h90
          · rw [show GRADE_THRESHOLD[(1 : Nat)]? = some 80 from rfl] at hl
            injection hl with hl2
            rw [← hl2]
            exact not_le.mp h80
        · intro h9
          exfalso
          rw [h9] at h90
          exact h90 (by norm_num)
        · intro hz
          exfalso
          have hz0 := hzero hz
          rw [hz0] at h70
          norm_num at h70
      · by_cases h60 : (60 : Rat) ≤ weightedSum r.scores
        · have hfound : grade_scan (weightedSum r.scores) = ScanResult.found 3 'D' := by
            rw [hscan]; simp [h90, h80, h70, h60]
          refine ⟨3, 60, 'D', by omega, rfl, rfl, h60, ?_, hfound, hcg 3 'D' hfound, ?_, ?_⟩
          · intro j t2 hj hl
            interval_cases j
            · rw [show GRADE_THRESHOLD[(0 : Nat)]? = some 90 from rfl] at hl
              injection hl with hl2
              rw [← hl2]
              exact not_le.mp h90
            · rw [show GRADE_THRESHOLD[(1 : Nat)]? = some 80 from rfl] at hl
              injection hl with hl2
              rw [← hl2]
              exact not_le.mp h80
            · rw [show GRADE_THRESHOLD[(2 : Nat)]? = some 70 from rfl] at hl
              injection hl with hl2
              rw [← hl2]
              exact not_le.mp h70
          · intro h9
            exfalso
            rw [h9] at h90
            exact h90 (by norm_num)
          · intro hz
            exfalso
            have hz0 := hzero hz
            rw [hz0] at h60
            norm_num at h60
        · have hfound : grade_scan (weightedSum r.scores) = ScanResult.found 4 'F' := by
            rw [hscan]; simp [h90, h80, h70, h60]
          refine ⟨4, 0, 'F', by omega, rfl, rfl, h0, ?_, hfound, hcg 4 'F' hfound, ?_, fun _ => rfl⟩
          · intro j t2 hj hl
            interval_cases j
            · rw [show GRADE_THRESHOLD[(0 : Nat)]? = some 90 from rfl] at hl
              injection hl with hl2
              rw [← hl2]
              exact not_le.mp h90
            · rw [show GRADE_THRESHOLD[(1 : Nat)]? = some 80 from rfl] at hl
              injection hl with hl2
              rw [← hl2]
              exact not_le.mp h80
            · rw [show GRADE_THRESHOLD[(2 : Nat)]? = some 70 from rfl] at hl
              injection hl with hl2
              rw [← hl2]
              exact not_le.mp h70
            · rw [show GRADE_THRESHOLD[(3 : Nat)]? = some 60 from rfl] at hl
              injection hl with hl2
              rw [← hl2]
              exact not_le.mp h60
          · intro h9
            exfalso
            rw [h9] at h90
            exact h90 (by norm_num)

/-- C1 witness: the theorem applied to a concrete all-90 record. -/
theorem C1_grade_scan_correct_witness :
    ∃ k t c, k ≤ 4 ∧
      GRADE_THRESHOLD[k]? = some t ∧ GRADE_LETTER[k]? = some c ∧
      t ≤ weightedSum [90, 90, 90, 90, 90, 90, 90] ∧
      (∀ j t2, j < k → GRADE_THRESHOLD[j]? = some t2 →
        weightedSum [90, 90, 90, 90, 90, 90, 90] < t2) ∧
      grade_scan (weightedSum [90, 90, 90, 90, 90, 90, 90]) = ScanResult.found k c ∧
      calculate_grade ⟨['S'], [90, 90, 90, 90, 90, 90, 90], 7, Char.ofNat 0⟩
        = .ok ⟨['S'], [90, 90, 90, 90, 90, 90, 90], 7, c⟩ ∧
      (weightedSum [90, 90, 90, 90, 90, 90, 90] = 90 → c = 'A') ∧
      ((∀ s ∈ ([90, 90, 90, 90, 90, 90, 90] : List Int), s = 0) → c = 'F') :=
  C1_grade_scan_correct ⟨['S'], [90, 90, 90, 90, 90, 90, 90], 7, Char.ofNat 0⟩ rfl rfl
    (by
      intro s hs
      simp only [List.mem_cons, List.not_mem_nil, or_false] at hs
      rcases hs with h | h | h | h | h | h | h <;> subst h <;> omega)

/-- C2 counterexample: the line has the non-numeric score token "abc", which
the claim says must fail with InvalidScore, yet `create_student` succeeds,
because `atoi` turns a non-numeric token into 0, which is inside [0,100]. -/
theorem C2_nonnumeric_accepted_counterexample :
    create_student [] (String.toList "Bob,abc,0,0,0,0,0,0")
      = .ok [⟨String.toList "Bob", [0, 0, 0, 0, 0, 0, 0], 7, Char.ofNat 0⟩] := by
  rfl

/-- C2 amended: `create_student` fails with InvalidScore exactly when some
score token converts (via `atoi`) to a value outside [0,100]; a token that
fails integer parse converts to its numeric prefix value (0 when none) and
is accepted when that value is in range.  The token "150" still fails,
reporting the value 150 and the bounds 0 and 100. -/
theorem C2_invalid_score_amended (store : List Record) (raw : List Char)
    (nameTok : List Char) (scoreToks : List (List Char))
    (h : strtok_toks raw = nameTok :: scoreToks) :
    ((∃ t ∈ scoreToks, 100 < atoi t ∨ atoi t < 0) ↔
      ∃ v, create_student store raw = .error (.invalidScore v 0 100)) ∧
    create_student [] (String.toList "A,150,0,0,0,0,0,0")
      = .error (.invalidScore 150 0 100) := by
  constructor
  · constructor
    · intro hex
      obtain ⟨v, hv, _, heq⟩ := set_scores_loop_err scoreToks hex
      refine ⟨v, ?_⟩
      simp only [create_student, h, heq]
    · rintro ⟨v, hv⟩
      by_contra hall
      push_neg at hall
      have hok := set_scores_loop_ok scoreToks (by
        intro u hu
        have h2 := hall u hu
        omega)
      simp only [create_student, h, hok] at hv
      exact Except.noConfusion hv
  · rfl

/-- C2 witness: the amended theorem applied to the concrete line
"A,150,0,0,0,0,0,0". -/
theorem C2_invalid_score_amended_witness :
    ((∃ t ∈ [String.toList "150", String.toList "0", String.toList "0", String.toList "0",
        String.toList "0", String.toList "0", String.toList "0"],
      100 < atoi t ∨ atoi t < 0) ↔
      ∃ v, create_student [] (String.toList "A,150,0,0,0,0,0,0")
        = .error (.invalidScore v 0 100)) ∧
    create_student [] (String.toList "A,150,0,0,0,0,0,0")
      = .error (.invalidScore 150 0 100) :=
  C2_invalid_score_amended [] (String.toList "A,150,0,0,0,0,0,0") (String.toList "A")
    [String.toList "150", String.toList "0", String.toList "0", String.toList "0",
      String.toList "0", String.toList "0", String.toList "0"] rfl

/-- C3: for every valid line "Name,s1,...,s7" (name and score tokens
nonempty and comma-free, each score token converting to an integer in
[0,100]), `create_student` succeeds and appends to the tail of the store a
record whose name is the name token, whose scores are [s1..s7] in order,
whose numberOfScores is 7, and whose grade is the zero (unset) char. -/
theorem C3_create_student_appends
    (store : List Record) (name t1 t2 t3 t4 t5 t6 t7 : List Char)
    (s1 s2 s3 s4 s5 s6 s7 : Int)
    (hn1 : name ≠ []) (hn2 : ∀ c ∈ name, c ≠ ',')
    (h11 : t1 ≠ []) (h12 : ∀ c ∈ t1, c ≠ ',') (h13 : atoi t1 = s1) (h14 : 0 ≤ s1 ∧ s1 ≤ 100)
    (h21 : t2 ≠ []) (h22 : ∀ c ∈ t2, c ≠ ',') (h23 : atoi t2 = s2) (h24 : 0 ≤ s2 ∧ s2 ≤ 100)
    (h31 : t3 ≠ []) (h32 : ∀ c ∈ t3, c ≠ ',') (h33 : atoi t3 = s3) (h34 : 0 ≤ s3 ∧ s3 ≤ 100)
    (h41 : t4 ≠ []) (h42 : ∀ c ∈ t4, c ≠ ',') (h43 : atoi t4 = s4) (h44 : 0 ≤ s4 ∧ s4 ≤ 100)
    (h51 : t5 ≠ []) (h52 : ∀ c ∈ t5, c ≠ ',') (h53 : atoi t5 = s5) (h54 : 0 ≤ s5 ∧ s5 ≤ 100)
    (h61 : t6 ≠ []) (h62 : ∀ c ∈ t6, c ≠ ',') (h63 : atoi t6 = s6) (h64 : 0 ≤ s6 ∧ s6 ≤ 100)
    (h71 : t7 ≠ []) (h72 : ∀ c ∈ t7, c ≠ ',') (h73 : atoi t7 = s7) (h74 : 0 ≤ s7 ∧ s7 ≤ 100) :
    create_student store
        (name ++ ',' :: (t1 ++ ',' :: (t2 ++ ',' :: (t3 ++ ',' :: (t4 ++ ',' ::
          (t5 ++ ',' :: (t6 ++ ',' :: t7)))))))
      = .ok (store ++ [⟨name, [s1, s2, s3, s4, s5, s6, s7], 7, Char.ofNat 0⟩]) := by
  have htoks : strtok_toks
      (name ++ ',' :: (t1 ++ ',' :: (t2 ++ ',' :: (t3 ++ ',' :: (t4 ++ ',' ::
        (t5 ++ ',' :: (t6 ++ ',' :: t7)))))))
      = [name, t1, t2, t3, t4, t5, t6, t7] := by
    rw [strtok_toks_append name _ hn1 hn2,
      strtok_toks_append t1 _ h11 h12,
      strtok_toks_append t2 _ h21 h22,
      strtok_toks_append t3 _ h31 h32,
      strtok_toks_append t4 _ h41 h42,
      strtok_toks_append t5 _ h51 h52,
      strtok_toks_append t6 _ h61 h62,
      strtok_toks_single t7 h71 h72]
  have hall : ∀ u ∈ [t1, t2, t3, t4, t5, t6, t7], ¬(100 < atoi u ∨ atoi u < 0) := by
    intro u hu
    simp only [List.mem_cons, List.not_mem_nil, or_false] at hu
    rcases hu with h | h | h | h | h | h | h <;> subst h <;>
      simp only [h13, h23, h33, h43, h53, h63, h73] <;> omega
  have hok := set_scores_loop_ok [t1, t2, t3, t4, t5, t6, t7] hall
  simp only [List.map_cons, List.map_nil, h13, h23, h33, h43, h53, h63, h73] at hok
  have hlen7 : ([t1, t2, t3, t4, t5, t6, t7] : List (List Char)).length = 7 := rfl
  rw [hlen7] at hok
  simp only [create_student, htoks, hlen7, hok, add_record_to_list_eq]

/-- C3 witness: the theorem applied to the concrete line
"Amy,90,80,70,60,50,40,100". -/
theorem C3_create_student_appends_witness :
    create_student []
        (String.toList "Amy" ++ ',' :: (String.toList "90" ++ ',' :: (String.toList "80"
          ++ ',' :: (String.toList "70" ++ ',' :: (String.toList "60" ++ ',' ::
          (String.toList "50" ++ ',' :: (String.toList "40" ++ ',' :: String.toList "100")))))))
      = .ok ([] ++ [⟨String.toList "Amy", [90, 80, 70, 60, 50, 40, 100], 7, Char.ofNat 0⟩]) :=
  C3_create_student_appends [] (String.toList "Amy") (String.toList "90") (String.toList "80")
    (String.toList "70") (String.toList "60") (String.toList "50") (String.toList "40")
    (String.toList "100") 90 80 70 60 50 40 100
    (by decide) (by decide)
    (by decide) (by decide) (by decide) (by decide)
    (by decide) (by decide) (by decide) (by decide)
    (by decide) (by decide) (by decide) (by decide)
    (by decide) (by decide) (by decide) (by decide)
    (by decide) (by decide) (by decide) (by decide)
    (by decide) (by decide) (by decide) (by decide)
    (by decide) (by decide) (by decide) (by decide)

/-- C4: `calculate_grade` fails with the score-count-mismatch error for
every record whose score count differs from the required 7, reporting the
student name, the actual count and the expected count; and
`calculate_student_grade` walks the store in order, so that when every
record before the offender grades successfully, the batch aborts at the
offender with that error, leaving the offender and every later record
ungraded. -/
theorem C4_score_count_mismatch_aborts (pre post : List Record) (r : Record)
    (hpre : ∀ x ∈ pre, ∃ y, calculate_grade x = .ok y)
    (hr : r.numberOfScores ≠ 7) :
    calculate_grade r = .error (.scoreCountMismatch r.name r.numberOfScores 7) ∧
    calculate_student_grade (pre ++ r :: post)
      = (some (.scoreCountMismatch r.name r.numberOfScores 7),
         pre.map gradedOf ++ r :: post) := by
  have hns : nScoresRequired = 7 := rfl
  have hcg : calculate_grade r = .error (.scoreCountMismatch r.name r.numberOfScores 7) := by
    unfold calculate_grade
    rw [if_pos (by rw [hns]; exact hr), hns]
  have main : ∀ (pre2 : List Record), (∀ x ∈ pre2, ∃ y, calculate_grade x = .ok y) →
      calculate_student_grade (pre2 ++ r :: post)
        = (some (.scoreCountMismatch r.name r.numberOfScores 7),
           pre2.map gradedOf ++ r :: post) := by
    intro pre2
    induction pre2 with
    | nil =>
      intro _
      simp only [List.nil_append, List.map_nil, calculate_student_grade, hcg]
    | cons x xs ih =>
      intro hpre2
      obtain ⟨y, hy⟩ := hpre2 x (by simp)
      have hgx : gradedOf x = y := by simp [gradedOf, hy]
      have hrec := ih (fun u hu => hpre2 u (by simp [hu]))
      simp only [List.cons_append, calculate_student_grade, hy, List.map_cons, hgx]
      rw [show xs.append (r :: post) = xs ++ r :: post from rfl, hrec]
  exact ⟨hcg, main pre hpre⟩

/-- C4 witness: the theorem applied to a concrete 6-score record. -/
theorem C4_score_count_mismatch_aborts_witness :
    calculate_grade ⟨['X'], [1, 2, 3, 4, 5, 6], 6, Char.ofNat 0⟩
      = .error (.scoreCountMismatch ['X'] 6 7) ∧
    calculate_student_grade [⟨['X'], [1, 2, 3, 4, 5, 6], 6, Char.ofNat 0⟩]
      = (some (.scoreCountMismatch ['X'] 6 7),
         [⟨['X'], [1, 2, 3, 4, 5, 6], 6, Char.ofNat 0⟩]) :=
  C4_score_count_mismatch_aborts [] [] ⟨['X'], [1, 2, 3, 4, 5, 6], 6, Char.ofNat 0⟩
    (by intro x hx; exact absurd hx (List.not_mem_nil x)) (by decide)

/-- C5: whenever `sort_list_by_name` succeeds, every adjacent pair of the
result is ordered by case-sensitive lexicographic (`strcmp`) comparison of
names, the result is a permutation of the input store, and sorting the
already-sorted result returns it unchanged (idempotence). -/
theorem C5_sort_by_name_sorted_perm_idempotent (l l2 : List Record)
    (h : sort_list_by_name l = .ok l2) :
    List.Chain' (fun a b => strcmp a.name b.name ≤ 0) l2 ∧ l2.Perm l ∧
    sort_list_by_name l2 = .ok l2 := by
  match l with
  | [] => simp [sort_list_by_name] at h
  | [x] =>
    simp only [sort_list_by_name, Except.ok.injEq] at h
    subst h
    exact ⟨by simp, List.Perm.refl _, rfl⟩
  | a :: b :: rest =>
    simp only [sort_list_by_name, Except.ok.injEq] at h
    have hsorted := bubble_sort_sorted (a :: b :: rest)
    have hperm := bubble_sort_perm (a :: b :: rest)
    rw [h] at hsorted hperm
    have hne : l2 ≠ [] := by
      intro hnil
      rw [hnil] at hperm
      have hlen := hperm.length_eq
      simp at hlen
    exact ⟨hsorted, hperm, sort_list_by_name_of_sorted l2 hne hsorted⟩

/-- C5 witness: the theorem applied to a concrete two-record store. -/
theorem C5_sort_by_name_sorted_perm_idempotent_witness :
    List.Chain' (fun a b => strcmp a.name b.name ≤ 0)
        [(⟨['a'], [], 0, Char.ofNat 0⟩ : Record), (⟨['b'], [], 0, Char.ofNat 0⟩ : Record)] ∧
    List.Perm
        [(⟨['a'], [], 0, Char.ofNat 0⟩ : Record), (⟨['b'], [], 0, Char.ofNat 0⟩ : Record)]
        [(⟨['a'], [], 0, Char.ofNat 0⟩ : Record), (⟨['b'], [], 0, Char.ofNat 0⟩ : Record)] ∧
    sort_list_by_name
        [(⟨['a'], [], 0, Char.ofNat 0⟩ : Record), (⟨['b'], [], 0, Char.ofNat 0⟩ : Record)]
      = .ok [(⟨['a'], [], 0, Char.ofNat 0⟩ : Record), (⟨['b'], [], 0, Char.ofNat 0⟩ : Record)] :=
  C5_sort_by_name_sorted_perm_idempotent
    [(⟨['a'], [], 0, Char.ofNat 0⟩ : Record), (⟨['b'], [], 0, Char.ofNat 0⟩ : Record)]
    [(⟨['a'], [], 0, Char.ofNat 0⟩ : Record), (⟨['b'], [], 0, Char.ofNat 0⟩ : Record)]
    (by
      have hs : List.Chain' (fun a b => strcmp a.name b.name ≤ 0)
          [(⟨['a'], [], 0, Char.ofNat 0⟩ : Record), (⟨['b'], [], 0, Char.ofNat 0⟩ : Record)] := by
        rw [List.chain'_cons]
        exact ⟨by decide, List.chain'_singleton _⟩
      exact sort_list_by_name_of_sorted _ (by simp) hs)

/-- C6 counterexample: the claim says `sort_list_by_name` is a successful
no-op on an empty store, but the code fails on an empty store because the
empty store is exactly the NULL head it rejects. -/
theorem C6_sort_empty_counterexample :
    ¬ ∃ l2, sort_list_by_name ([] : List Record) = .ok l2 := by
  rintro ⟨l2, hl⟩
  simp [sort_list_by_name] at hl

/-- C6 amended: `sort_list_by_name` fails with the empty-store error on an
empty store, because the program represents the store as the head pointer
and cannot distinguish a NULL (uninitialized) store from a legitimately
empty one; on a single-element store it is a successful no-op. -/
theorem C6_sort_empty_amended :
    sort_list_by_name ([] : List Record) = .error .emptyStore ∧
    ∀ (x : Record), sort_list_by_name [x] = .ok [x] :=
  ⟨rfl, fun _ => rfl⟩

/-- C7: for every column index below the 7-test arity of a well-formed
store (score lists of length 7 with values in [0,100]): over an empty store
`calculate_minimum` succeeds returning the domain maximum 100 and
`calculate_maximum` succeeds returning the domain minimum 0 (the fold
identities); over a nonempty store they succeed returning the minimum
respectively maximum of the column; and over a single-record store both
return that record's score at the column. -/
theorem C7_min_max_identities (store : List Record) (t : Nat)
    (ht : t < 7) (hlen : ∀ r ∈ store, r.scores.length = 7)
    (hrange : ∀ r ∈ store, ∀ s ∈ r.scores, 0 ≤ s ∧ s ≤ 100) :
    (store = [] →
      calculate_minimum store t = some (ReturnStatus.SUCCESS, 100) ∧
      calculate_maximum store t = some (ReturnStatus.SUCCESS, 0)) ∧
    (store ≠ [] →
      ∃ mn mx : Int,
        calculate_minimum store t = some (ReturnStatus.SUCCESS, (mn : Rat)) ∧
        calculate_maximum store t = some (ReturnStatus.SUCCESS, (mx : Rat)) ∧
        (∃ r ∈ store, r.scores[t]? = some mn) ∧
        (∀ r ∈ store, ∀ v : Int, r.scores[t]? = some v → mn ≤ v) ∧
        (∃ r ∈ store, r.scores[t]? = some mx) ∧
        (∀ r ∈ store, ∀ v : Int, r.scores[t]? = some v → v ≤ mx)) ∧
    (∀ (r : Record) (v : Int), store = [r] → r.scores[t]? = some v →
      calculate_minimum store t = some (ReturnStatus.SUCCESS, (v : Rat)) ∧
      calculate_maximum store t = some (ReturnStatus.SUCCESS, (v : Rat))) := by
  have hlt : ∀ r ∈ store, t < r.scores.length := by
    intro r hr
    have := hlen r hr
    omega
  have hgete : ∀ r ∈ store, r.scores[t]? = some ((r.scores[t]?).getD 0) := by
    intro r hr
    have h1 : t < r.scores.length := hlt r hr
    rw [List.getElem?_eq_getElem h1]
    rfl
  have hrange2 : ∀ r ∈ store, 0 ≤ (r.scores[t]?).getD 0 ∧ (r.scores[t]?).getD 0 ≤ 100 := by
    intro r hr
    have h1 : t < r.scores.length := hlt r hr
    rw [List.getElem?_eq_getElem h1, Option.getD_some]
    exact hrange r hr _ (List.getElem_mem h1)
  have hmain : store ≠ [] →
      ∃ mn mx : Int,
        calculate_minimum store t = some (ReturnStatus.SUCCESS, (mn : Rat)) ∧
        calculate_maximum store t = some (ReturnStatus.SUCCESS, (mx : Rat)) ∧
        (∃ r ∈ store, r.scores[t]? = some mn) ∧
        (∀ r ∈ store, ∀ v : Int, r.scores[t]? = some v → mn ≤ v) ∧
        (∃ r ∈ store, r.scores[t]? = some mx) ∧
        (∀ r ∈ store, ∀ v : Int, r.scores[t]? = some v → v ≤ mx) := by
    intro hne
    have hmin0 := min_loop_eq_foldl store t 100 hlt
    have hmax0 := max_loop_eq_foldl store t 0 hlt
    have hc100 : ((100 : Int) : Rat) = (100 : Rat) := by norm_num
    have hc0 : ((0 : Int) : Rat) = (0 : Rat) := by norm_num
    rw [hc100] at hmin0
    rw [hc0] at hmax0
    have hfm : store.foldl (fun acc r => min acc ((r.scores[t]?).getD 0)) 100
        = (store.map (fun r => (r.scores[t]?).getD 0)).foldl min 100 :=
      (List.foldl_map _ _ _ _).symm
    have hfM : store.foldl (fun acc r => max acc ((r.scores[t]?).getD 0)) 0
        = (store.map (fun r => (r.scores[t]?).getD 0)).foldl max 0 :=
      (List.foldl_map _ _ _ _).symm
    rw [hfm] at hmin0
    rw [hfM] at hmax0
    refine ⟨(store.map (fun r => (r.scores[t]?).getD 0)).foldl min 100,
      (store.map (fun r => (r.scores[t]?).getD 0)).foldl max 0,
      by simp [calculate_minimum, hmin0],
      by simp [calculate_maximum, hmax0], ?_, ?_, ?_, ?_⟩
    · rcases foldl_min_cases (store.map (fun r => (r.scores[t]?).getD 0)) 100 with hc | hc
      · obtain ⟨r0, hr0⟩ := List.exists_mem_of_ne_nil store hne
        have hv0 : (r0.scores[t]?).getD 0 ∈ store.map (fun r => (r.scores[t]?).getD 0) :=
          List.mem_map_of_mem _ hr0
        have hle := foldl_min_le_mem _ 100 _ hv0
        have hub0 := (hrange2 r0 hr0).2
        refine ⟨r0, hr0, ?_⟩
        rw [hgete r0 hr0]
        have : (r0.scores[t]?).getD 0
            = (store.map (fun r => (r.scores[t]?).getD 0)).foldl min 100 := by omega
        rw [this]
      · obtain ⟨r0, hr0, hr0e⟩ := List.mem_map.mp hc
        refine ⟨r0, hr0, ?_⟩
        rw [hgete r0 hr0, hr0e]
    · intro r hr v hv
      have hv2 : (r.scores[t]?).getD 0 = v := by rw [hv]; rfl
      have hmem : (r.scores[t]?).getD 0 ∈ store.map (fun r => (r.scores[t]?).getD 0) :=
        List.mem_map_of_mem _ hr
      have := foldl_min_le_mem _ 100 _ hmem
      omega
    · rcases foldl_max_cases (store.map (fun r => (r.scores[t]?).getD 0)) 0 with hc | hc
      · obtain ⟨r0, hr0⟩ := List.exists_mem_of_ne_nil store hne
        have hv0 : (r0.scores[t]?).getD 0 ∈ store.map (fun r => (r.scores[t]?).getD 0) :=
          List.mem_map_of_mem _ hr0
        have hge := foldl_max_ge_mem _ 0 _ hv0
        have hlb0 := (hrange2 r0 hr0).1
        refine ⟨r0, hr0, ?_⟩
        rw [hgete r0 hr0]
        have : (r0.scores[t]?).getD 0
            = (store.map (fun r => (r.scores[t]?).getD 0)).foldl max 0 := by omega
        rw [this]
      · obtain ⟨r0, hr0, hr0e⟩ := List.mem_map.mp hc
        refine ⟨r0, hr0, ?_⟩
        rw [hgete r0 hr0, hr0e]
    · intro r hr v hv
      have hv2 : (r.scores[t]?).getD 0 = v := by rw [hv]; rfl
      have hmem : (r.scores[t]?).getD 0 ∈ store.map (fun r => (r.scores[t]?).getD 0) :=
        List.mem_map_of_mem _ hr
      have := foldl_max_ge_mem _ 0 _ hmem
      omega
  refine ⟨?_, hmain, ?_⟩
  · intro hnil
    subst hnil
    exact ⟨rfl, rfl⟩
  · intro r v hs hv
    subst hs
    obtain ⟨mn, mx, hmin, hmax, ⟨r1, hr1, hg1⟩, _, ⟨r2, hr2, hg2⟩, _⟩ := hmain (by simp)
    have e1 : r1 = r := by simpa using hr1
    have e2 : r2 = r := by simpa using hr2
    subst e1
    subst e2
    rw [hv] at hg1 hg2
    injection hg1 with e3
    injection hg2 with e4
    subst e3
    subst e4
    exact ⟨hmin, hmax⟩

/-- C7 witness: the theorem applied to a concrete single-record store at
column 0, and to the empty store through the same statement shape. -/
theorem C7_min_max_identities_witness :
    (([⟨['X'], [5, 4, 3, 2, 1, 0, 7], 7, Char.ofNat 0⟩] : List Record) = [] →
      calculate_minimum [⟨['X'], [5, 4, 3, 2, 1, 0, 7], 7, Char.ofNat 0⟩] 0
        = some (ReturnStatus.SUCCESS, 100) ∧
      calculate_maximum [⟨['X'], [5, 4, 3, 2, 1, 0, 7], 7, Char.ofNat 0⟩] 0
        = some (ReturnStatus.SUCCESS, 0)) ∧
    (([⟨['X'], [5, 4, 3, 2, 1, 0, 7], 7, Char.ofNat 0⟩] : List Record) ≠ [] →
      ∃ mn mx : Int,
        calculate_minimum [⟨['X'], [5, 4, 3, 2, 1, 0, 7], 7, Char.ofNat 0⟩] 0
          = some (ReturnStatus.SUCCESS, (mn : Rat)) ∧
        calculate_maximum [⟨['X'], [5, 4, 3, 2, 1, 0, 7], 7, Char.ofNat 0⟩] 0
          = some (ReturnStatus.SUCCESS, (mx : Rat)) ∧
        (∃ r ∈ ([⟨['X'], [5, 4, 3, 2, 1, 0, 7], 7, Char.ofNat 0⟩] : List Record),
          r.scores[0]? = some mn) ∧
        (∀ r ∈ ([⟨['X'], [5, 4, 3, 2, 1, 0, 7], 7, Char.ofNat 0⟩] : List Record),
          ∀ v : Int, r.scores[0]? = some v → mn ≤ v) ∧
        (∃ r ∈ ([⟨['X'], [5, 4, 3, 2, 1, 0, 7], 7, Char.ofNat 0⟩] : List Record),
          r.scores[0]? = some mx) ∧
        (∀ r ∈ ([⟨['X'], [5, 4, 3, 2, 1, 0, 7], 7, Char.ofNat 0⟩] : List Record),
          ∀ v : Int, r.scores[0]? = some v → v ≤ mx)) ∧
    (∀ (r : Record) (v : Int),
      ([⟨['X'], [5, 4, 3, 2, 1, 0, 7], 7, Char.ofNat 0⟩] : List Record) = [r] →
      r.scores[0]? = some v →
      calculate_minimum [⟨['X'], [5, 4, 3, 2, 1, 0, 7], 7, Char.ofNat 0⟩] 0
        = some (ReturnStatus.SUCCESS, (v : Rat)) ∧
      calculate_maximum [⟨['X'], [5, 4, 3, 2, 1, 0, 7], 7, Char.ofNat 0⟩] 0
        = some (ReturnStatus.SUCCESS, (v : Rat))) :=
  C7_min_max_identities [⟨['X'], [5, 4, 3, 2, 1, 0, 7], 7, Char.ofNat 0⟩] 0
    (by omega)
    (by
      intro r hr
      simp only [List.mem_cons, List.not_mem_nil, or_false] at hr
      subst hr
      rfl)
    (by
      intro r hr
      simp only [List.mem_cons, List.not_mem_nil, or_false] at hr
      subst hr
      intro s hs
      simp only [List.mem_cons, List.not_mem_nil, or_false] at hs
      rcases hs with h | h | h | h | h | h | h <;> subst h <;> omega)

/-- C8: `calculate_average` fails with the guarded divide-by-zero error
exactly when the store holds zero records, and otherwise returns the
arithmetic mean of the column across all records. -/
theorem C8_average_guarded (store : List Record) (t : Nat)
    (ht : t < 7) (hlen : ∀ r ∈ store, r.scores.length = 7) :
    (calculate_average store t = some (.error .divideByZero) ↔ store = []) ∧
    (store ≠ [] →
      calculate_average store t
        = some (.ok ((store.map (fun r => (((r.scores[t]?).getD 0 : Int) : Rat))).sum
            / (store.length : Rat)))) := by
  have hlt : ∀ r ∈ store, t < r.scores.length := by
    intro r hr
    have := hlen r hr
    omega
  have havg := avg_loop_eq store t 0 0 hlt
  have hok : store ≠ [] →
      calculate_average store t
        = some (.ok ((store.map (fun r => (((r.scores[t]?).getD 0 : Int) : Rat))).sum
            / (store.length : Rat))) := by
    intro hne
    have hcnt : ¬ (0 + store.length = 0) := by
      have := List.length_pos.mpr hne
      omega
    simp only [calculate_average, havg, hcnt, if_false]
    simp
  refine ⟨⟨?_, ?_⟩, hok⟩
  · intro h
    by_contra hne
    rw [hok hne] at h
    simp at h
  · intro h
    subst h
    rfl

/-- C8 witness: the theorem applied to a concrete single-record store. -/
theorem C8_average_guarded_witness :
    ((calculate_average [⟨['X'], [5, 4, 3, 2, 1, 0, 7], 7, Char.ofNat 0⟩] 0
        = some (.error .divideByZero)) ↔
      ([⟨['X'], [5, 4, 3, 2, 1, 0, 7], 7, Char.ofNat 0⟩] : List Record) = []) ∧
    (([⟨['X'], [5, 4, 3, 2, 1, 0, 7], 7, Char.ofNat 0⟩] : List Record) ≠ [] →
      calculate_average [⟨['X'], [5, 4, 3, 2, 1, 0, 7], 7, Char.ofNat 0⟩] 0
        = some (.ok ((([⟨['X'], [5, 4, 3, 2, 1, 0, 7], 7, Char.ofNat 0⟩] : List Record).map
              (fun r => (((r.scores[0]?).getD 0 : Int) : Rat))).sum
            / (([⟨['X'], [5, 4, 3, 2, 1, 0, 7], 7, Char.ofNat 0⟩] : List Record).length : Rat)))) :=
  C8_average_guarded [⟨['X'], [5, 4, 3, 2, 1, 0, 7], 7, Char.ofNat 0⟩] 0
    (by omega)
    (by
      intro r hr
      simp only [List.mem_cons, List.not_mem_nil, or_false] at hr
      subst hr
      rfl)

/-- C9 counterexample: on "a,,b" the code's `strtok` tokenizer does not
produce the spec's sequence of substrings between separators (it drops the
empty field), and on the empty string `get_token_count` returns SUCCESS
with zero tokens instead of failing. -/
theorem C9_empty_fields_counterexample :
    strtok_toks (String.toList "a,,b") ≠ fields_per_spec (String.toList "a,,b") ∧
    get_token_count (String.toList "") = (ReturnStatus.SUCCESS, 0) := by
  constructor
  · decide
  · rfl

/-- C9 amended: the tokenizer has `strtok` semantics: it produces, in
order, the maximal nonempty substrings between commas — the spec-side
field sequence with the empty fields filtered out; `get_token_count`
always succeeds and counts exactly those tokens (zero for an empty input,
with no EmptyInput failure), and iterated `get_next_token` calls yield the
same tokens in order. -/
theorem C9_strtok_tokenizer_amended (s : List Char) :
    get_token_count s = (ReturnStatus.SUCCESS, (strtok_toks s).length) ∧
    token_run (s.length + 1) s = strtok_toks s ∧
    strtok_toks s = (fields_per_spec s).filter (fun f => !f.isEmpty) := by
  have h2 : token_run (s.length + 1) s = strtok_toks s :=
    token_run_eq_strtok_toks (s.length + 1) s (by omega)
  refine ⟨?_, h2, strtok_toks_eq_filter s⟩
  simp only [get_token_count, count_tokens_loop_eq, h2]

/-- C10: on the empty store `write_names_and_grades_to_file` returns
SUCCESS and writes zero record lines: the internal sort failure on the
NULL head is swallowed, so an empty store never propagates a failure out
of the record-writing stage. -/
theorem C10_empty_store_write_success :
    write_names_and_grades_to_file [] = (ReturnStatus.SUCCESS, []) ∧
    sort_list_by_name ([] : List Record) = .error .emptyStore :=
  ⟨rfl, rfl⟩

end LetterGrader
